import Mathlib

/-!
Verification of the `Iter` sequence-cursor library (`src/iter.js`).

Shallow embedding conventions:
* A JavaScript value of the element domain that may be `undefined` is
  modelled as `Option α`; `none` is `undefined`.  The backing array may
  itself contain `undefined` entries, so `Iter.val : List (Option α)`.
* `this.val[i]` yields `undefined` both out of bounds and when the stored
  element is `undefined`; `jsGet` models this with `List.getD _ _ none`.
* A user callback is an arbitrary JS function; the pipeline only ever
  observes (a) the value it returns, as an element-or-undefined, and
  (b) the truthiness of that returned value.  `Callback` records both
  views as independent fields.
* The `higher_order` array holds the three private combinators
  `_map`, `_filter`, `_tap`; they are the constructors of `HO`, and
  `applyHO` is their code.
-/

set_option autoImplicit false

universe u

/-- One registered user function: `ret` is the value it returns (possibly
`undefined`), `truthy` is the truthiness of that same call's result. -/
structure Callback (α : Type u) where
  ret : α → Option α
  truthy : α → Bool

/-- The three higher-order combinators stored in `higher_order`:
`Iter._map`, `Iter._filter`, `Iter._tap`. -/
inductive HO where
  | map
  | filter
  | tap
deriving DecidableEq

/-- Application of one pipeline stage to a defined value.
`_map` returns `fn(val)` unchanged; `_filter` returns `fn(val) ? val :
undefined`; `_tap` calls `fn(val)` for effect and returns `val`. -/
def applyHO {α : Type u} (h : HO) (c : Callback α) (v : α) : Option α :=
  match h with
  | HO.map => c.ret v
  | HO.filter => if c.truthy v then some v else none
  | HO.tap => some v

/-- The `for` loop of `next()`/`prev()`: apply `higher_order[i]` paired with
`callback[i]` in order, stopping as soon as the running value is
`undefined`.  Extra callbacks beyond `higher_order.length` are ignored, as
in the source loop bound; the case of a missing callback (unreachable when
the two arrays have equal length) passes the value through. -/
def runStages {α : Type u} : List HO → List (Callback α) → α → Option α
  | [], _, v => some v
  | _ :: _, [], v => some v
  | h :: hs, c :: cs, v =>
    match applyHO h c v with
    | some w => runStages hs cs w
    | none => none

/-- Feed a raw array slot through the pipeline: a raw `undefined` never
enters the `for` loop (`next !== undefined` guards it). -/
def pipeVal {α : Type u} (hs : List HO) (cs : List (Callback α)) : Option α → Option α
  | none => none
  | some v => runStages hs cs v

/-- The `Iter` object: current index, backing array, and the two parallel
pipeline arrays. -/
structure Iter (α : Type u) where
  idx : Nat
  val : List (Option α)
  higher_order : List HO
  callback : List (Callback α)

/-- JS indexing `val[i]`: `undefined` out of bounds, else the stored slot. -/
def jsGet {α : Type u} (l : List (Option α)) (i : Nat) : Option α :=
  l.getD i none

/-- Truthiness of an element-or-undefined (`undefined` is falsy). -/
def jsTruthy {α : Type u} (tr : α → Bool) : Option α → Bool
  | none => false
  | some v => tr v

/-- Constructor `new Iter(val)`; it also sets `idx = 0` and empties both
pipeline arrays (`val || []` defaulting is applied by the caller). -/
def iterNew {α : Type u} (val : List (Option α)) : Iter α :=
  ⟨0, val, [], []⟩

/-- Method `reset()`: index back to 0, both pipeline arrays emptied; `val` kept. -/
def Iter.reset {α : Type u} (it : Iter α) : Iter α :=
  { it with idx := 0, higher_order := [], callback := [] }

/-- Method `has_next()`: `idx < val.length`. -/
def Iter.has_next {α : Type u} (it : Iter α) : Bool :=
  it.idx < it.val.length

/-- Method `has_prev()`: `idx > 0`. -/
def Iter.has_prev {α : Type u} (it : Iter α) : Bool :=
  0 < it.idx

/-- The `while` loop of `next()` over the slots from the current index on:
read a slot, advance, pipe it; stop on the first defined result.  Returns
the result together with the number of slots consumed. -/
def nextFrom {α : Type u} (hs : List HO) (cs : List (Callback α)) :
    List (Option α) → Option α × Nat
  | [] => (none, 0)
  | v :: rest =>
    match pipeVal hs cs v with
    | some w => (some w, 1)
    | none =>
      let p := nextFrom hs cs rest
      (p.1, p.2 + 1)

/-- Method `next()`: run the while loop from `idx`; the consumed count is how far
`idx` advanced.  (`val.drop idx` is empty exactly when `has_next()` is
false, so the loop guard is preserved.) -/
def Iter.next {α : Type u} (it : Iter α) : Option α × Iter α :=
  let p := nextFrom it.higher_order it.callback (it.val.drop it.idx)
  (p.1, { it with idx := it.idx + p.2 })

/-- The `while` loop of `prev()`, by recursion on the index: while
`idx > 0` and nothing was produced, decrement and read `val[idx]`, piping
the slot.  Returns the result and the final index. -/
def prevLoop {α : Type u} (hs : List HO) (cs : List (Callback α))
    (val : List (Option α)) : Nat → Option α × Nat
  | 0 => (none, 0)
  | i + 1 =>
    match pipeVal hs cs (jsGet val i) with
    | some w => (some w, i)
    | none => prevLoop hs cs val i

/-- Method `prev()`. -/
def Iter.prev {α : Type u} (it : Iter α) : Option α × Iter α :=
  let p := prevLoop it.higher_order it.callback it.val it.idx
  (p.1, { it with idx := p.2 })

/-- Method `peek()`: `return this.val[this.idx + 1]` — raw access, no pipeline,
no index change (it is a pure read of the state). -/
def Iter.peek {α : Type u} (it : Iter α) : Option α :=
  jsGet it.val (it.idx + 1)

/-- Method `map(fn)`: push `this._map` and `fn` onto the parallel arrays. -/
def Iter.map {α : Type u} (it : Iter α) (c : Callback α) : Iter α :=
  { it with higher_order := it.higher_order ++ [HO.map],
            callback := it.callback ++ [c] }

/-- Method `filter(fn)`: push `this._filter` and `fn`. -/
def Iter.filter {α : Type u} (it : Iter α) (c : Callback α) : Iter α :=
  { it with higher_order := it.higher_order ++ [HO.filter],
            callback := it.callback ++ [c] }

/-- Method `tap(fn)`: push `this._tap` and `fn`. -/
def Iter.tap {α : Type u} (it : Iter α) (c : Callback α) : Iter α :=
  { it with higher_order := it.higher_order ++ [HO.tap],
            callback := it.callback ++ [c] }

/-- Method `some(fn)`: push `this._filter` and `fn` (the body of `filter`), then
`return !!this.next()` — the truthiness of the produced value. -/
def Iter.some {α : Type u} (it : Iter α) (tr : α → Bool) (c : Callback α) :
    Bool × Iter α :=
  let p := (it.filter c).next
  (jsTruthy tr p.1, p.2)

/-- Method `find(fn)`: push `this._filter` and `fn`, then `return this.next()`. -/
def Iter.find {α : Type u} (it : Iter α) (c : Callback α) : Option α × Iter α :=
  (it.filter c).next

/-- The `while (has_next())` loop of `collect()` over the remaining slots:
every defined pipeline result is appended, `undefined` results are
dropped. -/
def collectFrom {α : Type u} (hs : List HO) (cs : List (Callback α)) :
    List (Option α) → List α
  | [] => []
  | v :: rest =>
    match pipeVal hs cs v with
    | some w => w :: collectFrom hs cs rest
    | none => collectFrom hs cs rest

/-- Method `collect()`: drain forward; afterwards `has_next()` is false (the index
ends at `val.length`, or stays put when it already lay beyond it). -/
def Iter.collect {α : Type u} (it : Iter α) : List α × Iter α :=
  (collectFrom it.higher_order it.callback (it.val.drop it.idx),
   { it with idx := max it.idx it.val.length })

/-- Iterated state: `n` successive calls of `next()`, keeping only the final state. -/
def nextN {α : Type u} (it : Iter α) : Nat → Iter α
  | 0 => it
  | k + 1 => nextN it.next.2 k

/-- The mutating operations of the class that touch the pipeline arrays. -/
inductive Op (α : Type u) where
  | reset
  | map (c : Callback α)
  | filter (c : Callback α)
  | tap (c : Callback α)
  | someOp (tr : α → Bool) (c : Callback α)
  | find (c : Callback α)

/-- Run one operation for its state change. -/
def applyOp {α : Type u} (it : Iter α) : Op α → Iter α
  | Op.reset => it.reset
  | Op.map c => it.map c
  | Op.filter c => it.filter c
  | Op.tap c => it.tap c
  | Op.someOp tr c => (it.some tr c).2
  | Op.find c => (it.find c).2

/-- The intended invariant: the two parallel arrays have equal length. -/
def pipelineInv {α : Type u} (it : Iter α) : Prop :=
  it.higher_order.length = it.callback.length

/-- Pipeline evaluation over explicit positional pairs. -/
def runZip {α : Type u} : List (HO × Callback α) → α → Option α
  | [], v => some v
  | (h, c) :: ps, v =>
    match applyHO h c v with
    | some w => runZip ps w
    | none => none

/-- Modelled from the spec: the repository's test suite exercises `skip`
and `take`, but no implementation of either exists under `src` (only the
tests call them).  Following the design note of the spec, a pipeline of
stateful stages is an ordered list of tagged variants — `Map(fn)`,
`Filter(pred)`, `Tap`, `Skip(counter)`, `Take(counter)` — each exposing
`apply(value) → value | NoValue` together with its updated counter
state. -/
inductive SStage (α : Type u) where
  | sMap (fn : α → Option α)
  | sFilter (pred : α → Bool)
  | sTap
  | sSkip (counter : Nat)
  | sTake (counter : Nat)

/-- Modelled from the spec: one stateful stage applied to one defined
value.  `Skip(n)` signals "no value" for the first `n` elements reaching
it and passes everything after; `Take(n)` passes the first `n` and
signals "no value" ever after. -/
def SStage.apply {α : Type u} : SStage α → α → Option α × SStage α
  | SStage.sMap fn, v => (fn v, SStage.sMap fn)
  | SStage.sFilter pred, v =>
    (if pred v then some v else none, SStage.sFilter pred)
  | SStage.sTap, v => (some v, SStage.sTap)
  | SStage.sSkip 0, v => (some v, SStage.sSkip 0)
  | SStage.sSkip (k + 1), _ => (none, SStage.sSkip k)
  | SStage.sTake 0, _ => (none, SStage.sTake 0)
  | SStage.sTake (k + 1), v => (some v, SStage.sTake k)

/-- Modelled from the spec: run the stateful stages in registration order,
short-circuiting the instant a stage yields "no value"; stages already
run keep their updated counters, later stages are untouched. -/
def runSStages {α : Type u} : List (SStage α) → α → Option α × List (SStage α)
  | [], v => (some v, [])
  | s :: ss, v =>
    match SStage.apply s v with
    | (some w, s2) =>
      let p := runSStages ss w
      (p.1, s2 :: p.2)
    | (none, s2) => (none, s2 :: ss)

/-- Modelled from the spec: the cursor extended with the stateful-stage
pipeline that `skip`/`take` require. -/
structure IterS (α : Type u) where
  idx : Nat
  val : List (Option α)
  stages : List (SStage α)

/-- Modelled from the spec: a fresh extended cursor. -/
def iterSNew {α : Type u} (val : List (Option α)) : IterS α :=
  ⟨0, val, []⟩

/-- Modelled from the spec: `skip(n)` registers a stateful filter-like
stage discarding the first `n` raw elements reaching it, counted per
stage instance, and returns the cursor for chaining. -/
def IterS.skip {α : Type u} (it : IterS α) (n : Nat) : IterS α :=
  { it with stages := it.stages ++ [SStage.sSkip n] }

/-- Modelled from the spec: the `collect()` drain over stateful stages;
raw `undefined` slots bypass the stages exactly as in the core loop. -/
def collectFromS {α : Type u} :
    List (SStage α) → List (Option α) → List α × List (SStage α)
  | ss, [] => ([], ss)
  | ss, v :: rest =>
    match v with
    | none => collectFromS ss rest
    | some x =>
      match runSStages ss x with
      | (some w, ss2) =>
        let p := collectFromS ss2 rest
        (w :: p.1, p.2)
      | (none, ss2) => collectFromS ss2 rest

/-- Modelled from the spec: terminal `collect()` on the extended cursor. -/
def IterS.collect {α : Type u} (it : IterS α) : List α × IterS α :=
  let p := collectFromS it.stages (it.val.drop it.idx)
  (p.1, { it with idx := max it.idx it.val.length, stages := p.2 })

/-- Modelled from the spec: the loop of `every(fn)` over the remaining
slots — drain via `next()` semantics with `fn` as a local check, stopping
early on the first failure; returns the verdict and the number of slots
consumed. -/
def everyFrom {α : Type u} (hs : List HO) (cs : List (Callback α))
    (p : α → Bool) : List (Option α) → Bool × Nat
  | [] => (true, 0)
  | v :: rest =>
    match pipeVal hs cs v with
    | some w =>
      if p w then
        let q := everyFrom hs cs p rest
        (q.1, q.2 + 1)
      else (false, 1)
    | none =>
      let q := everyFrom hs cs p rest
      (q.1, q.2 + 1)

/-- Modelled from the spec: `every(fn)` is absent from `src` (only the
tests call it); the spec prescribes a terminal, non-chainable operation
that drains remaining traversal via `next()` with `fn` as a local check,
stopping early on first failure, true on an empty remainder, and leaving
no permanent pipeline stage behind. -/
def Iter.every {α : Type u} (it : Iter α) (p : α → Bool) : Bool × Iter α :=
  let q := everyFrom it.higher_order it.callback p (it.val.drop it.idx)
  (q.1, { it with idx := it.idx + q.2 })

/-! ### Basic lemmas about the traversal loops -/

theorem runStages_nil {α : Type u} (cs : List (Callback α)) (v : α) :
    runStages [] cs v = some v := by
  cases cs <;> rfl

theorem collectFrom_no_stages {α : Type u} (l : List (Option α)) :
    collectFrom ([] : List HO) ([] : List (Callback α)) l = l.filterMap id := by
  induction l with
  | nil => rfl
  | cons v rest ih =>
    cases v with
    | none => simpa [collectFrom, pipeVal] using ih
    | some x => simpa [collectFrom, pipeVal, runStages] using ih

/-- A map-only pipeline transforms each defined slot elementwise. -/
theorem collectFrom_single_map {α : Type u} (f : α → α) (t : α → Bool)
    (l : List α) :
    collectFrom [HO.map] [Callback.mk (fun v => some (f v)) t]
      (l.map Option.some) = l.map f := by
  induction l with
  | nil => rfl
  | cons x rest ih =>
    simpa [collectFrom, pipeVal, runStages, applyHO] using ih

/-- C1: `map(f)` then `collect()` on a fresh cursor is the element-wise
application of `f` to the backing collection in order, and the `_map`
combinator returns the callback's result unchanged (it never produces
`undefined` on its own). -/
theorem claim_C1 {α : Type u} (l : List α) (f : α → α) (t : α → Bool) :
    ((iterNew (l.map Option.some)).map (Callback.mk (fun v => some (f v)) t)).collect.1
        = l.map f
      ∧ ∀ (c : Callback α) (v : α), applyHO HO.map c v = c.ret v := by
  constructor
  · simpa [Iter.collect, Iter.map, iterNew] using collectFrom_single_map f t l
  · intro c v
    rfl

/-! ### `some` and truthiness (C2) -/

/-- C2 counterexample: over backing `[0]` with an always-true predicate,
the immediate `next()` call does produce the value `0`, yet `some`
returns `false`, because `!!0` is `false` (0 is falsy in JS). -/
theorem claim_C2_counterexample :
    ((iterNew [some (0 : Nat)]).some (fun n => !(n == 0))
        (Callback.mk (fun v => some v) (fun _ => true))).1 = false
      ∧ ((iterNew [some (0 : Nat)]).filter
          (Callback.mk (fun v => some v) (fun _ => true))).next.1 = some 0 :=
  ⟨rfl, rfl⟩

/-- C2 amended: `some(fn)` registers `fn` as a filter stage and
immediately calls `next()` once (the resulting state is exactly that of
`filter(fn)` followed by `next()`), and returns true iff that call
produced a truthy value — a produced falsy value yields `false`. -/
theorem claim_C2_amended {α : Type u} (tr : α → Bool) (it : Iter α)
    (c : Callback α) :
    ((it.some tr c).1 = true ↔
        ∃ v, ((it.filter c).next).1 = some v ∧ tr v = true)
      ∧ (it.some tr c).2 = ((it.filter c).next).2 := by
  refine ⟨?_, rfl⟩
  show jsTruthy tr ((it.filter c).next).1 = true ↔ _
  cases h : ((it.filter c).next).1 with
  | none => simp [jsTruthy]
  | some v => simp [jsTruthy]

/-! ### Exhaustion (C5) -/

theorem next_val_eq {α : Type u} (it : Iter α) : it.next.2.val = it.val := rfl

theorem next_exhausted {α : Type u} (it : Iter α)
    (h : it.val.length ≤ it.idx) : it.next = (none, it) := by
  have hd : it.val.drop it.idx = [] := List.drop_eq_nil_of_le h
  simp [Iter.next, hd, nextFrom]

theorem nextFrom_consumes_pos {α : Type u} (hs : List HO)
    (cs : List (Callback α)) (v : Option α) (rest : List (Option α)) :
    1 ≤ (nextFrom hs cs (v :: rest)).2 := by
  simp only [nextFrom]
  cases pipeVal hs cs v <;> simp

theorem next_idx_lt {α : Type u} (it : Iter α)
    (h : it.idx < it.val.length) : it.idx < it.next.2.idx := by
  have hd : it.val.drop it.idx ≠ [] := by
    intro hnil
    rw [List.drop_eq_nil_iff] at hnil
    omega
  obtain ⟨v, rest, hvr⟩ := List.exists_cons_of_ne_nil hd
  have hpos := nextFrom_consumes_pos it.higher_order it.callback v rest
  show it.idx < it.idx + (nextFrom it.higher_order it.callback (it.val.drop it.idx)).2
  rw [hvr]
  omega

theorem nextN_val_eq {α : Type u} :
    ∀ (k : Nat) (it : Iter α), (nextN it k).val = it.val := by
  intro k
  induction k with
  | zero => intro it; rfl
  | succ k ih => intro it; simpa [nextN] using ih it.next.2

theorem nextN_length_le {α : Type u} :
    ∀ (k : Nat) (it : Iter α), it.val.length ≤ it.idx + k →
      it.val.length ≤ (nextN it k).idx := by
  intro k
  induction k with
  | zero => intro it h; simpa using h
  | succ k ih =>
    intro it h
    show it.val.length ≤ (nextN it.next.2 k).idx
    rcases Nat.lt_or_ge it.idx it.val.length with hlt | hge
    · have hidx := next_idx_lt it hlt
      have hval := next_val_eq it
      have := ih it.next.2 (by rw [hval]; omega)
      rw [hval] at this
      exact this
    · rw [next_exhausted it hge]
      exact ih it (by omega)

/-- C5: from a fresh cursor over any backing collection, with any
registered pipeline, after `length` calls of `next()` the cursor reports
`has_next() = false`, and every subsequent `next()` call returns the
"no value" sentinel (the embedding is total, so no error is ever
raised). -/
theorem claim_C5 {α : Type u} (l : List (Option α)) (hs : List HO)
    (cs : List (Callback α)) :
    (nextN (Iter.mk 0 l hs cs) l.length).has_next = false
      ∧ ∀ m : Nat,
        ((nextN (nextN (Iter.mk 0 l hs cs) l.length) m).next).1 = none := by
  have h1 : l.length ≤ (nextN (Iter.mk 0 l hs cs) l.length).idx :=
    nextN_length_le l.length (Iter.mk 0 l hs cs) (by simp)
  constructor
  · simp only [Iter.has_next, nextN_val_eq]
    simpa using h1
  · intro m
    have hv1 : (nextN (Iter.mk 0 l hs cs) l.length).val = l :=
      nextN_val_eq _ _
    have h3 : (nextN (Iter.mk 0 l hs cs) l.length).val.length ≤
        (nextN (Iter.mk 0 l hs cs) l.length).idx + m := by
      rw [hv1]
      omega
    have h4 := nextN_length_le m _ h3
    rw [hv1] at h4
    have h5 : (nextN (nextN (Iter.mk 0 l hs cs) l.length) m).val.length ≤
        (nextN (nextN (Iter.mk 0 l hs cs) l.length) m).idx := by
      rw [nextN_val_eq, hv1]
      exact h4
    rw [next_exhausted _ h5]

/-! ### Cursor symmetry with an empty pipeline (C6) -/

theorem jsGet_drop {α : Type u} :
    ∀ (n : Nat) (l : List (Option α)) (j : Nat),
      (l.drop n).getD j none = jsGet l (n + j) := by
  intro n
  induction n with
  | zero => intro l j; simp [jsGet]
  | succ n ih =>
    intro l j
    cases l with
    | nil => simp [jsGet]
    | cons a t =>
      have harith : n + 1 + j = (n + j) + 1 := by omega
      simp [jsGet, harith, ih t j]

theorem nextFrom_no_stages {α : Type u} :
    ∀ (rest : List (Option α)) (v : α) (k : Nat),
      nextFrom ([] : List HO) ([] : List (Callback α)) rest = (some v, k) →
      ∃ j, k = j + 1 ∧ rest.getD j none = some v := by
  intro rest
  induction rest with
  | nil =>
    intro v k h
    simp [nextFrom] at h
  | cons w rest ih =>
    intro v k h
    cases w with
    | some x =>
      have hx : nextFrom ([] : List HO) ([] : List (Callback α))
          (some x :: rest) = (some x, 1) := rfl
      rw [hx] at h
      injection h with h1 h2
      injection h1 with h1
      exact ⟨0, by omega, by simp [h1]⟩
    | none =>
      rcases hres : nextFrom ([] : List HO) ([] : List (Callback α)) rest
        with ⟨r, k'⟩
      have hx : nextFrom ([] : List HO) ([] : List (Callback α))
          (none :: rest) = (r, k' + 1) := by
        simp [nextFrom, pipeVal, hres]
      rw [hx] at h
      injection h with h1 h2
      obtain ⟨j, hj, hget⟩ := ih v k' (by rw [hres, h1])
      refine ⟨j + 1, by omega, by simpa using hget⟩

/-- C6: with no pipeline stages registered, whenever `next()` returns a raw
element, an immediately following `prev()` from the resulting position
returns that same raw element. -/
theorem claim_C6 {α : Type u} (it : Iter α) (v : α)
    (h1 : it.higher_order = []) (h2 : it.callback = [])
    (h3 : it.next.1 = some v) :
    it.next.2.prev.1 = some v := by
  rcases hres : nextFrom it.higher_order it.callback (it.val.drop it.idx)
    with ⟨r, k⟩
  have hr : r = some v := by
    have hn : it.next.1 = r := by simp [Iter.next, hres]
    rw [hn] at h3
    exact h3
  rw [h1, h2] at hres
  rw [hr] at hres
  obtain ⟨j, hj, hget⟩ := nextFrom_no_stages _ v k hres
  have hstate : it.next.2 = { it with idx := it.idx + k } := by
    simp [Iter.next, h1, h2, hres]
  rw [hstate, hj]
  have hread : jsGet it.val (it.idx + j) = some v := by
    rw [← jsGet_drop]
    exact hget
  show (prevLoop it.higher_order it.callback it.val ((it.idx + j) + 1)).1
      = some v
  rw [h1, h2]
  simp [prevLoop, hread, pipeVal, runStages]

/-- C6 witness at the concrete cursor over `[3]`. -/
theorem claim_C6_witness :
    ((iterNew [some (3 : Nat)]).next.2).prev.1 = some 3 :=
  claim_C6 (iterNew [some (3 : Nat)]) 3 rfl rfl rfl

/-! ### Raw peek (C7) -/

/-- C7: `peek()` reads the raw slot at index `idx + 1` (one beyond the
current position), ignores the registered pipeline entirely, and — being a
pure read — leaves the cursor state untouched. -/
theorem claim_C7 {α : Type u} (it : Iter α) (hs : List HO)
    (cs : List (Callback α)) :
    it.peek = it.val.getD (it.idx + 1) none
      ∧ (Iter.mk it.idx it.val hs cs).peek = it.peek :=
  ⟨rfl, rfl⟩

/-! ### Permanence of `some`/`find` (C8) -/

/-- C8: `some(fn)` (and `find(fn)`) pushes `fn` under `_filter` onto the
pipeline arrays — where it stays for every later call — keeps the backing
collection, and consumes cursor position (strictly, whenever an element
remained); `find` performs the identical state change and returns the
value of the same `filter`-then-`next` composition. -/
theorem claim_C8 {α : Type u} (it : Iter α) (tr : α → Bool) (c : Callback α)
    (h : it.has_next = true) :
    (it.some tr c).2.higher_order = it.higher_order ++ [HO.filter]
      ∧ (it.some tr c).2.callback = it.callback ++ [c]
      ∧ (it.some tr c).2.val = it.val
      ∧ it.idx < (it.some tr c).2.idx
      ∧ (it.find c).2 = (it.some tr c).2
      ∧ (it.find c).1 = ((it.filter c).next).1 := by
  have hidx : (it.filter c).idx < (it.filter c).val.length := by
    simpa [Iter.has_next, Iter.filter] using h
  have hlt := next_idx_lt (it.filter c) hidx
  exact ⟨rfl, rfl, rfl, hlt, rfl, rfl⟩

/-- C8 witness on the cursor over `[1]`. -/
theorem claim_C8_witness :
    (iterNew [some (1 : Nat)]).has_next = true
      ∧ 0 < ((iterNew [some (1 : Nat)]).some (fun _ => true)
          (Callback.mk (fun v => some v) (fun _ => true))).2.idx :=
  ⟨rfl, (claim_C8 (iterNew [some (1 : Nat)]) (fun _ => true)
    (Callback.mk (fun v => some v) (fun _ => true)) rfl).2.2.2.1⟩

/-! ### Undefined backing elements are never surfaced (C9) -/

/-- C9: the sentinel is `undefined` itself, so even with an empty pipeline
a raw `undefined` element never reaches a caller: `collect()` returns
exactly the defined slots, and both `next()` and `prev()` behave on a
cursor facing an `undefined` slot exactly as on the cursor already moved
past it (traversal silently continues). -/
theorem claim_C9 {α : Type u} (l l₁ l₂ : List (Option α)) :
    (Iter.mk 0 l [] ([] : List (Callback α))).collect.1 = l.filterMap id
      ∧ (Iter.mk l₁.length (l₁ ++ none :: l₂) [] ([] : List (Callback α))).next
          = (Iter.mk (l₁.length + 1) (l₁ ++ none :: l₂) [] []).next
      ∧ (Iter.mk (l₁.length + 1) (l₁ ++ none :: l₂) []
            ([] : List (Callback α))).prev
          = (Iter.mk l₁.length (l₁ ++ none :: l₂) [] []).prev := by
  refine ⟨?_, ?_, ?_⟩
  · simp [Iter.collect, collectFrom_no_stages]
  · have hdropL : (l₁ ++ none :: l₂).drop l₁.length = none :: l₂ :=
      List.drop_left l₁ (none :: l₂)
    have hsplit : l₁ ++ none :: l₂ = (l₁ ++ [none]) ++ l₂ := by simp
    have hdropL1 : (l₁ ++ none :: l₂).drop (l₁.length + 1) = l₂ := by
      rw [hsplit]
      have hlen : (l₁ ++ [none]).length = l₁.length + 1 := by simp
      rw [← hlen]
      exact List.drop_left _ _
    rcases hres : nextFrom ([] : List HO) ([] : List (Callback α)) l₂
      with ⟨r, k⟩
    have hL : (Iter.mk l₁.length (l₁ ++ none :: l₂) []
        ([] : List (Callback α))).next
        = (r, Iter.mk (l₁.length + (k + 1)) (l₁ ++ none :: l₂) [] []) := by
      simp [Iter.next, hdropL, nextFrom, pipeVal, hres]
    have hR : (Iter.mk (l₁.length + 1) (l₁ ++ none :: l₂) []
        ([] : List (Callback α))).next
        = (r, Iter.mk (l₁.length + 1 + k) (l₁ ++ none :: l₂) [] []) := by
      simp [Iter.next, hdropL1, hres]
    rw [hL, hR]
    have harith : l₁.length + (k + 1) = l₁.length + 1 + k := by omega
    rw [harith]
  · have hget : jsGet (l₁ ++ none :: l₂) l₁.length = none := by
      induction l₁ with
      | nil => rfl
      | cons a t ih => simpa [jsGet] using ih
    have hstep : prevLoop ([] : List HO) ([] : List (Callback α))
        (l₁ ++ none :: l₂) (l₁.length + 1)
        = prevLoop [] [] (l₁ ++ none :: l₂) l₁.length := by
      simp [prevLoop, hget, pipeVal]
    simp [Iter.prev, hstep]

/-! ### Parallel pipeline arrays stay in lockstep (C10) -/

theorem runStages_eq_runZip {α : Type u} :
    ∀ (hs : List HO) (cs : List (Callback α)) (v : α),
      hs.length = cs.length → runStages hs cs v = runZip (hs.zip cs) v := by
  intro hs
  induction hs with
  | nil => intro cs v _; rw [runStages_nil]; rfl
  | cons h hs ih =>
    intro cs v hlen
    cases cs with
    | nil => simp at hlen
    | cons c cs =>
      show (match applyHO h c v with
            | some w => runStages hs cs w
            | none => none)
          = (match applyHO h c v with
             | some w => runZip (hs.zip cs) w
             | none => none)
      cases applyHO h c v with
      | none => rfl
      | some w => exact ih cs w (by simpa using hlen)

/-- C10: the constructor establishes equal lengths of `higher_order` and
`callback`, every operation (`reset`, `map`, `filter`, `tap`, `some`,
`find`) preserves that invariant, and under it the evaluation loop is the
loop over the positional zip of the two arrays — stage `i` always runs
with callback `i`, so no user function is applied under the wrong
combinator. -/
theorem claim_C10 {α : Type u} (l : List (Option α)) (it : Iter α)
    (op : Op α) (h1 : pipelineInv it) (hs : List HO)
    (cs : List (Callback α)) (v : α) (h2 : hs.length = cs.length) :
    pipelineInv (iterNew l)
      ∧ pipelineInv (applyOp it op)
      ∧ runStages hs cs v = runZip (hs.zip cs) v := by
  refine ⟨rfl, ?_, runStages_eq_runZip hs cs v h2⟩
  cases op with
  | reset => simp [applyOp, Iter.reset, pipelineInv]
  | map c =>
    simp only [applyOp, Iter.map, pipelineInv, List.length_append]
    simpa [pipelineInv] using h1
  | filter c =>
    simp only [applyOp, Iter.filter, pipelineInv, List.length_append]
    simpa [pipelineInv] using h1
  | tap c =>
    simp only [applyOp, Iter.tap, pipelineInv, List.length_append]
    simpa [pipelineInv] using h1
  | someOp tr c =>
    show ((it.filter c).next).2.higher_order.length
        = ((it.filter c).next).2.callback.length
    show (it.filter c).higher_order.length = (it.filter c).callback.length
    simp only [Iter.filter, List.length_append]
    simpa [pipelineInv] using h1
  | find c =>
    show ((it.filter c).next).2.higher_order.length
        = ((it.filter c).next).2.callback.length
    show (it.filter c).higher_order.length = (it.filter c).callback.length
    simp only [Iter.filter, List.length_append]
    simpa [pipelineInv] using h1

/-- C10 witness: the invariant holds concretely and the zipped evaluation
agrees on a concrete one-stage pipeline. -/
theorem claim_C10_witness :
    pipelineInv (iterNew [some (1 : Nat)])
      ∧ pipelineInv (applyOp (iterNew [some (1 : Nat)])
          (Op.map (Callback.mk (fun v => some v) (fun _ => true))))
      ∧ runStages [HO.map] [Callback.mk (fun v => some (v + 1))
            (fun _ => true)] 1
          = runZip ([HO.map].zip [Callback.mk (fun v => some (v + 1))
            (fun _ => true)]) 1 :=
  claim_C10 [some (1 : Nat)] (iterNew [some (1 : Nat)])
    (Op.map (Callback.mk (fun v => some v) (fun _ => true))) rfl
    [HO.map] [Callback.mk (fun v => some (v + 1)) (fun _ => true)] 1 rfl

/-! ### Spec-modelled `skip` (C3) and `every` (C4) -/

theorem collectFromS_skip {α : Type u} :
    ∀ (l : List α) (n : Nat),
      (collectFromS [SStage.sSkip n] (l.map Option.some)).1 = l.drop n := by
  intro l
  induction l with
  | nil => intro n; simp [collectFromS]
  | cons x t ih =>
    intro n
    cases n with
    | zero => simpa [collectFromS, runSStages, SStage.apply] using ih 0
    | succ k => simpa [collectFromS, runSStages, SStage.apply] using ih k

/-- C3: on a fresh cursor, `skip(n)` then `collect()` drops the first `n`
elements of the backing collection; in particular the result is empty
when `n` is at least the collection's length. -/
theorem claim_C3 {α : Type u} (l : List α) (n : Nat) :
    ((iterSNew (l.map Option.some)).skip n).collect.1 = l.drop n
      ∧ (l.length ≤ n →
          ((iterSNew (l.map Option.some)).skip n).collect.1 = []) := by
  have hc : ((iterSNew (l.map Option.some)).skip n).collect.1 = l.drop n := by
    simpa [IterS.collect, IterS.skip, iterSNew] using collectFromS_skip l n
  refine ⟨hc, fun h => ?_⟩
  rw [hc]
  exact List.drop_eq_nil_iff.mpr h

/-- C3 witness: skipping past the end of `[1, 2]` collects nothing. -/
theorem claim_C3_witness :
    ((iterSNew ([(1 : Nat), 2].map Option.some)).skip 5).collect.1 = []
      ∧ [(1 : Nat), 2].length ≤ 5 :=
  ⟨(claim_C3 [(1 : Nat), 2] 5).2 (by decide), by decide⟩

theorem everyFrom_iff {α : Type u} (hs : List HO) (cs : List (Callback α))
    (p : α → Bool) :
    ∀ (l : List (Option α)),
      (everyFrom hs cs p l).1 = true ↔
        ∀ w ∈ collectFrom hs cs l, p w = true := by
  intro l
  induction l with
  | nil => simp [everyFrom, collectFrom]
  | cons v rest ih =>
    cases hv : pipeVal hs cs v with
    | none => simpa [everyFrom, collectFrom, hv] using ih
    | some w =>
      cases hp : p w with
      | true => simpa [everyFrom, collectFrom, hv, hp] using ih
      | false => simp [everyFrom, collectFrom, hv, hp]

/-- C4: `every(fn)` returns true iff `fn` holds for every element the
remaining traversal (current position onward, through the registered
pipeline) produces; it returns true on an empty remainder and leaves the
pipeline arrays and the backing collection untouched — no permanent
stage. -/
theorem claim_C4 {α : Type u} (it : Iter α) (p : α → Bool) :
    ((it.every p).1 = true ↔
        ∀ w ∈ collectFrom it.higher_order it.callback (it.val.drop it.idx),
          p w = true)
      ∧ (it.val.length ≤ it.idx → (it.every p).1 = true)
      ∧ (it.every p).2.higher_order = it.higher_order
      ∧ (it.every p).2.callback = it.callback
      ∧ (it.every p).2.val = it.val := by
  refine ⟨everyFrom_iff _ _ _ _, fun h => ?_, rfl, rfl, rfl⟩
  have hd : it.val.drop it.idx = [] := List.drop_eq_nil_iff.mpr h
  show (everyFrom it.higher_order it.callback p (it.val.drop it.idx)).1 = true
  rw [hd]
  rfl

/-- C4 witness: `every` on an exhausted cursor returns true. -/
theorem claim_C4_witness :
    ((iterNew ([] : List (Option Nat))).every (fun _ => true)).1 = true :=
  (claim_C4 (iterNew ([] : List (Option Nat))) (fun _ => true)).2.1
    (by decide)
